import Mathlib

/- A shallow embedding of the action-dispatch and version-archiving subsystem of
the concourse-go-sdk repository, centered on the generic dispatcher in
resource.go (check, in, out and the Exec emission step), the boltdb archive
backend (History and Put), and the reflection-based signature validator
(validateArgs) of the Action implementation. Serialized JSON byte fragments are
modeled as String values; marshalling and unmarshalling of the user supplied
types are parameters gathered in a Codec record. -/

namespace Sdk

/-- Outcome of calling a Go function value: a normal return, an error return
(the error list models a multierror aggregate; singletons model plain errors),
or a runtime panic unwinding out of the call. -/
inductive GoOutcome (A : Type) where
  | ok (a : A)
  | fail (errs : List String)
  | panicked (msg : String)
deriving DecidableEq, Repr

/-- Metadata name value pair attached to in and out responses (resource.go). -/
structure Metadata where
  name : String
  value : String
deriving DecidableEq, Repr

/-- Response payload of the in and out operations (resource.go Response). -/
structure GoResponse (V : Type) where
  version : V
  metadata : List Metadata
deriving DecidableEq, Repr

/-- Serialization environment for the user supplied types: JSON marshalling and
unmarshalling of the version type, the md5 content fingerprint computed over
serialized version bytes by check, and decoding plus optional Validatable hooks
for the get and put parameter types. -/
structure Codec (S V G P : Type) where
  marshalV : V → String
  unmarshalV : String → Option V
  fp : String → String
  unmarshalG : String → Option G
  validateG : G → Option String
  unmarshalP : String → Option P
  validateP : P → Option String

/-- Result of the History and Put exchange an archive collaborator offers one
check invocation: hist is what History returned for the latest hint of this
invocation, and put gives the result Put returns on a given batch. -/
structure ArchiverModel where
  hist : Except String (List String)
  put : List String → Except String Unit

/-- Observable outcome of one check invocation (resource.go check): the result
value or failure, the version argument the handler was invoked with (none when
the handler was never called), the batch of serialized versions passed to
archive Put, and whether Put was called at all. -/
structure CheckOut (V : Type) where
  result : GoOutcome (List V)
  handlerArg : Option (Option V)
  putBatch : List String
  putCalled : Bool
deriving DecidableEq, Repr

/-- Version adoption step of check (resource.go lines 263 to 272): when no
request version exists and the archived history is non empty, the last history
entry is decoded and adopted as the latest known version. -/
def adoptVersion (C : Codec S V G P) (history : List String) (version : Option V) :
    Except String (Option V) :=
  match version, history.getLast? with
  | none, some b =>
    match C.unmarshalV b with
    | none => .error "error parsing history version"
    | some v => .ok (some v)
  | v, _ => .ok v

/-- History re-emission loop of check (resource.go lines 281 to 289): each
archived entry is decoded into the version type, aborting on the first decode
failure; the md5 fingerprints of the raw entries feed the archived set. -/
def decodeHistory (C : Codec S V G P) : List String → Except String (List V)
  | [] => .ok []
  | b :: rest =>
    match C.unmarshalV b with
    | none => .error ("error parsing archived resource version: " ++ b)
    | some v =>
      match decodeHistory C rest with
      | .error e => .error e
      | .ok vs => .ok (v :: vs)

/-- New version filtering loop of check (resource.go lines 298 to 312): each
handler returned version is serialized; if its fingerprint is not in the
archived set it joins the result, and, when an archive is configured, its
serialization joins the unarchived batch. The archived set is never extended
inside the loop. -/
def filterNew (C : Codec S V G P) (archived : List String) (hasArchiver : Bool) :
    List V → List V × List String
  | [] => ([], [])
  | v :: rest =>
    let s := C.marshalV v
    let p := filterNew C archived hasArchiver rest
    if archived.contains (C.fp s) then p
    else (v :: p.1, if hasArchiver then s :: p.2 else p.2)

/-- Tail of check after history retrieval and version adoption: decode the
history, invoke the handler, filter its versions against the archived
fingerprint set, and put the unarchived batch when non empty. -/
def checkRest (C : Codec S V G P) (f : Option S → Option V → GoOutcome (List V))
    (src : Option S) (hasArchiver : Bool) (put : List String → Except String Unit)
    (history : List String) (version : Option V) : CheckOut V :=
  match decodeHistory C history with
  | .error e => ⟨.fail [e], none, [], false⟩
  | .ok histVs =>
    let archived := history.map C.fp
    match f src version with
    | .panicked m => ⟨.panicked m, some version, [], false⟩
    | .fail es => ⟨.fail es, some version, [], false⟩
    | .ok newVs =>
      let p := filterNew C archived hasArchiver newVs
      if hasArchiver && !p.2.isEmpty then
        match put p.2 with
        | .error e => ⟨.fail ["error archiving new versions: " ++ e], some version, p.2, true⟩
        | .ok _ => ⟨.ok (histVs ++ p.1), some version, p.2, true⟩
      else ⟨.ok (histVs ++ p.1), some version, [], false⟩

/-- The check operation of the generic dispatcher (resource.go lines 240 to
321): with an archive, fetch history (the History result is a field of the
archiver model), adopt the latest archived version when the request carried
none, re-emit decoded history, append unseen handler versions and archive
them. -/
def checkGo (C : Codec S V G P) (f : Option S → Option V → GoOutcome (List V))
    (arch : Option ArchiverModel) (src : Option S) (version : Option V) : CheckOut V :=
  match arch with
  | none => checkRest C f src false (fun _ => .ok ()) [] version
  | some a =>
    match a.hist with
    | .error e => ⟨.fail ["error hydrating archived version history: " ++ e], none, [], false⟩
    | .ok history =>
      match adoptVersion C history version with
      | .error e => ⟨.fail [e], none, [], false⟩
      | .ok v2 => checkRest C f src true a.put history v2

/-- Helper joining rendered elements with commas. -/
def joinComma : List String → String
  | [] => ""
  | [s] => s
  | s :: rest => s ++ "," ++ joinComma rest

/-- JSON body the Exec emission step (resource.go line 232) produces for the
version list built by check: the Go slice is built only by append onto a nil
slice, so it is nil exactly when empty, and encoding a nil slice yields the
JSON literal null rather than an empty array. -/
def renderCheckBody (C : Codec S V G P) (vs : List V) : String :=
  if vs.isEmpty then "null" else "[" ++ joinComma (vs.map C.marshalV) ++ "]"

/-- Process level outcome of one invocation. -/
inductive ProcOutcome where
  | emitted (body : String)
  | errored (diag : List String)
  | crashed (panicMsg : String)
deriving DecidableEq, Repr

/-- Wiring of the generic entrypoint (resource.go Exec lines 109 to 237 and
Main lines 84 to 104): a returned error is printed to stderr and the process
exits non zero with nothing on stdout; a normal result is encoded to stdout.
No deferred recover exists anywhere on this path, so a panic that unwinds out
of the operation escapes to the Go runtime and crashes the process. -/
def runGeneric (render : A → String) : GoOutcome A → ProcOutcome
  | .ok a => .emitted (render a)
  | .fail es => .errored es
  | .panicked m => .crashed m

/-- Deferred recover installed at the top of the reflection based Action Exec
(action source lines 152 to 158): a panic unwinding out of the action body is
recovered and converted into an ordinary error return carrying the panic
description. -/
def recoverToError : GoOutcome A → GoOutcome A
  | .panicked m => .fail ["panic: " ++ m]
  | o => o

/-- Parameter decoding shared by in and out (resource.go lines 332 to 350 and
371 to 389): an absent or null fragment yields no value and no error; a decode
failure or a failing Validatable hook contributes an error to the multierror. -/
def parseParams (unm : String → Option G) (val : G → Option String) (raw : Option String) :
    Option G × List String :=
  match raw with
  | none => (none, [])
  | some s =>
    match unm s with
    | none => (none, ["error parsing get parameters"])
    | some p =>
      match val p with
      | some m => (some p, ["invalid get parameters: " ++ m])
      | none => (some p, [])

/-- Observable outcome of one in invocation. -/
structure InOut (V : Type) where
  result : GoOutcome (GoResponse V)
  handlerCalled : Bool
deriving DecidableEq, Repr

/-- The in operation of the generic dispatcher (resource.go lines 324 to 365):
a missing request version joins the multierror as a version required failure
before the handler is consulted; on success the response carries the request
version unchanged together with the metadata the handler returned. -/
def inGo (C : Codec S V G P) (f : Option S → Option V → String → Option G → GoOutcome (List Metadata))
    (src : Option S) (version : Option V) (path : String) (rawParams : Option String) : InOut V :=
  let pp := parseParams C.unmarshalG C.validateG rawParams
  let errs := (if version.isNone then ["version required"] else []) ++ pp.2
  match version with
  | none => ⟨.fail errs, false⟩
  | some v =>
    if errs.isEmpty then
      match f src (some v) path pp.1 with
      | .panicked m => ⟨.panicked m, true⟩
      | .fail es => ⟨.fail es, true⟩
      | .ok meta => ⟨.ok ⟨v, meta⟩, true⟩
    else ⟨.fail errs, false⟩

/-- Observable outcome of one out invocation: the result, whether the handler
ran, and the serialized version passed to archive Put when it was called. -/
structure OutOut (V : Type) where
  result : GoOutcome (GoResponse V)
  handlerCalled : Bool
  putArg : Option String
deriving DecidableEq, Repr

/-- The out operation of the generic dispatcher (resource.go lines 368 to 418):
parse and validate put parameters, invoke the handler for a new version plus
metadata, and, when an archive is configured, serialize the version and put it,
escalating a put failure to an invocation failure. -/
def outGo (C : Codec S V G P) (f : Option S → String → Option P → GoOutcome (V × List Metadata))
    (put : Option (String → Except String Unit)) (src : Option S) (path : String)
    (rawParams : Option String) : OutOut V :=
  let pp := parseParams C.unmarshalP C.validateP rawParams
  if pp.2.isEmpty then
    match f src path pp.1 with
    | .panicked m => ⟨.panicked m, true, none⟩
    | .fail es => ⟨.fail es, true, none⟩
    | .ok (v, meta) =>
      match put with
      | none => ⟨.ok ⟨v, meta⟩, true, none⟩
      | some putF =>
        let s := C.marshalV v
        match putF s with
        | .error e => ⟨.fail ["error archiving new version: " ++ e], true, some s⟩
        | .ok _ => ⟨.ok ⟨v, meta⟩, true, some s⟩
  else ⟨.fail pp.2, false, none⟩

/-- Concrete codec instantiation used for evaluation: versions are their own
serialized bytes, decoding always succeeds, the fingerprint is the identity,
and the parameter types are trivial with no Validatable hook. -/
def idCodec : Codec Unit String Unit Unit :=
  ⟨id, some, id, fun _ => some (), fun _ => none, fun _ => some (), fun _ => none⟩

/-- State of the boltdb archive backend (pkg archive boltdb): the versions
bucket holds serialized versions keyed by monotonically generated ulids, so its
iteration order is insertion order and is modeled as a list; the index bucket
holds the sha1 digests of the stored entries and is modeled as the list of
digests. -/
structure BoltState where
  contents : List String
  index : List String
deriving DecidableEq, Repr

/-- The boltdb Put (boltdb.go lines 358 to 386): for each incoming serialized
version, when its digest is absent from the index bucket, record the digest and
append the version under a fresh ulid key; otherwise skip it. -/
def boltPut (g : String → String) (st : BoltState) (next : List String) : BoltState :=
  next.foldl
    (fun s b => if s.index.contains (g b) then s else ⟨s.contents ++ [b], s.index ++ [g b]⟩)
    st

/-- The boltdb History (boltdb.go lines 338 to 356): when a latest hint was
supplied and the force history setting is off, return nothing; otherwise return
every stored entry in bucket order. -/
def boltHistory (force : Bool) (st : BoltState) (latest : Option String) : List String :=
  match latest with
  | some _ => if force then st.contents else []
  | none => st.contents

/-- One check invocation wired to a boltdb archive: History is called with the
serialized request version as the latest hint, and the unarchived batch check
produces is put into the store (an empty batch leaves the store unchanged,
matching the guard around Put in check). -/
def checkWithBolt (C : Codec S V G P) (g : String → String) (force : Bool)
    (f : Option S → Option V → GoOutcome (List V)) (src : Option S) (version : Option V)
    (st : BoltState) : CheckOut V × BoltState :=
  let a : ArchiverModel := ⟨.ok (boltHistory force st (version.map C.marshalV)), fun _ => .ok ()⟩
  let co := checkGo C f (some a) src version
  (co, boltPut g st co.putBatch)

/-- Model of Go reflect types as the signature validator inspects them. -/
inductive GoType where
  | named (n : String)
  | ptr (t : GoType)
  | slice (t : GoType)
  | str
  | int
  | ctxIface
  | errIface
  | archiveIface
  | metadataStruct
deriving DecidableEq, Repr

/-- Kind is Struct. -/
def GoType.isStructKind : GoType → Bool
  | .named _ => true
  | .metadataStruct => true
  | _ => false

/-- Kind is Ptr with a struct element, the shape required of source, version
and params arguments. -/
def GoType.isPtrToStruct : GoType → Bool
  | .ptr t => t.isStructKind
  | _ => false

/-- Implements context.Context; the model recognizes the interface type
itself. -/
def GoType.implementsCtx : GoType → Bool
  | .ctxIface => true
  | _ => false

/-- Implements error; the model recognizes the interface type itself. -/
def GoType.implementsError : GoType → Bool
  | .errIface => true
  | _ => false

/-- Element type of a pointer or slice type. -/
def GoType.elemTy : GoType → Option GoType
  | .ptr t => some t
  | .slice t => some t
  | _ => none

/-- The enumeration of supported action input kinds (action source). -/
inductive Argument where
  | contextInput
  | sourceInput
  | versionInput
  | pathInput
  | paramsInput
deriving DecidableEq, Repr

/-- The enumeration of supported action return shapes (action source). -/
inductive ReturnValue where
  | errOutput
  | versionOutput
  | versionsOutput
  | metadataOnlyOutput
  | archiveOutput
deriving DecidableEq, Repr

/-- Static description of one supported action (action source Action). -/
structure ActionDesc where
  method : String
  arguments : List Argument
  requirePath : Bool
  returnValues : ReturnValue

/-- The Check action descriptor. -/
def checkAction : ActionDesc :=
  ⟨"Check", [.contextInput, .sourceInput, .versionInput], false, .versionsOutput⟩

/-- The In action descriptor (deprecated version returning variant). -/
def inAction : ActionDesc :=
  ⟨"In", [.contextInput, .sourceInput, .versionInput, .pathInput, .paramsInput], true,
    .versionOutput⟩

/-- The In action descriptor in its metadata only variant. -/
def inMetadataOnlyAction : ActionDesc :=
  ⟨"In", [.contextInput, .sourceInput, .versionInput, .pathInput, .paramsInput], true,
    .metadataOnlyOutput⟩

/-- The Out action descriptor. -/
def outAction : ActionDesc :=
  ⟨"Out", [.contextInput, .sourceInput, .pathInput, .paramsInput], true, .versionOutput⟩

/-- A handler signature as reflect reports it: argument types in order and
return types in order. -/
structure GoSig where
  ins : List GoType
  outs : List GoType

/-- Abstract per fragment results of the validateArg calls the argument loop
makes for this request and handler: none means the fragment decoded and
validated fine, some carries the error message validateArg produced. -/
structure ReqParse where
  sourceErr : Option String
  versionErr : Option String
  paramsErr : Option String

/-- Checks the argument loop performs for one argument slot (action source
validateArgs lines 381 to 427): shape checks per kind, and, for the source,
version and params slots, the validateArg result for the matching request
fragment. A failing shape check skips decoding for source and version, while
the params case lacks the break and still records the decode result. -/
def argCheck (req : ReqParse) (i : Nat) (arg : Argument) (t : GoType) : List String :=
  match arg with
  | .contextInput =>
    if t.implementsCtx then []
    else ["argument " ++ toString i ++ " must be of type context.Context"]
  | .sourceInput =>
    if !t.isPtrToStruct then ["argument " ++ toString i ++ " must be pointer to source struct"]
    else
      match req.sourceErr with
      | some e => ["error parsing source argument: " ++ e]
      | none => []
  | .pathInput =>
    if t = GoType.str then [] else ["argument " ++ toString i ++ " must be path string"]
  | .versionInput =>
    if !t.isPtrToStruct then ["argument " ++ toString i ++ " must be pointer to version struct"]
    else
      match req.versionErr with
      | some e => ["error parsing version argument: " ++ e]
      | none => []
  | .paramsInput =>
    (if !t.isPtrToStruct then ["argument " ++ toString i ++ " must be pointer to params struct"]
     else [])
      ++ (match req.paramsErr with
          | some e => ["error parsing params argument: " ++ e]
          | none => [])

/-- The argument loop: argument kinds and declared parameter types are walked
in lockstep, and every slot contributes its violations to the multierror. -/
def argErrsLoop (req : ReqParse) (i : Nat) : List Argument → List GoType → List String
  | [], _ => []
  | _ :: _, [] => []
  | a :: as, t :: ts => argCheck req i a t ++ argErrsLoop req (i + 1) as ts

/-- Return shape checks (action source validateArgs lines 429 to 473): the
return count per action kind, and, when the count is right, the shape of each
leading return value. -/
def retCheck (rv : ReturnValue) (outs : List GoType) : List String :=
  match rv with
  | .errOutput =>
    if outs.length = 1 then [] else ["requires 1 return value, got " ++ toString outs.length]
  | .archiveOutput =>
    if outs.length = 2 then
      if outs.getD 0 GoType.str = GoType.archiveIface then []
      else ["first return value must be archive.Archive"]
    else ["requires 2 return values, got " ++ toString outs.length]
  | .metadataOnlyOutput =>
    if outs.length = 2 then
      match outs.getD 0 GoType.str with
      | .slice t => if t = GoType.metadataStruct then [] else ["second return value must be slice of metadata"]
      | _ => ["second return value must be slice of metadata"]
    else ["requires 2 return values, got " ++ toString outs.length]
  | .versionOutput =>
    if outs.length = 3 then
      (if (outs.getD 0 GoType.str).isPtrToStruct then []
       else ["first return value must be pointer to version struct"])
        ++ (match outs.getD 1 GoType.str with
            | .slice t => if t = GoType.metadataStruct then [] else ["second return value must be slice of metadata"]
            | _ => ["second return value must be slice of metadata"])
    else ["requires 3 return values, got " ++ toString outs.length]
  | .versionsOutput =>
    if outs.length = 2 then
      match outs.getD 0 GoType.str with
      | .slice t => if t.isStructKind then [] else ["first return value must be slice of version structs"]
      | _ => ["first return value must be slice of versions"]
    else ["requires 2 return values, got " ++ toString outs.length]

/-- The trailing error check (action source validateArgs lines 475 to 477). -/
def lastRetCheck (outs : List GoType) : List String :=
  match outs.getLast? with
  | none => ["last return value must be of type error"]
  | some t => if t.implementsError then [] else ["last return value must be of type error"]

/-- The version input output agreement check that runs only once every other
check passed (action source validateArgs lines 483 to 491). -/
def versionMismatch (act : ActionDesc) (sig : GoSig) : Bool :=
  act.arguments.enum.any fun ai =>
    ai.2 = Argument.versionInput
      && (act.returnValues = ReturnValue.versionOutput
          || act.returnValues = ReturnValue.versionsOutput)
      && !((sig.ins.getD ai.1 GoType.str).elemTy == (sig.outs.getD 0 GoType.str).elemTy)

/-- The signature validator (action source validateArgs lines 374 to 494): a
wrong argument count fails alone and at once; otherwise every argument shape
violation, every return shape violation and a missing trailing error type are
collected into one multierror, and only when it is empty does the version
agreement check run. -/
def validateArgsModel (act : ActionDesc) (sig : GoSig) (req : ReqParse) :
    Except (List String) Unit :=
  if sig.ins.length ≠ act.arguments.length then
    .error ["expected method to require " ++ toString act.arguments.length
      ++ " arguments, got " ++ toString sig.ins.length]
  else
    let errs := argErrsLoop req 0 act.arguments sig.ins
      ++ retCheck act.returnValues sig.outs ++ lastRetCheck sig.outs
    if errs.isEmpty then
      if versionMismatch act sig then .error ["version input and output must be same type"]
      else .ok ()
    else .error errs

/-- Gate at the top of the reflection based action body (action source exec
lines 192 to 196): the signature validator runs first and its failure aborts
the action, so the method is called only after validation passed. The behavior
from the archive phase onward is abstracted as rest. -/
def actionExecGate (act : ActionDesc) (sig : GoSig) (req : ReqParse)
    (rest : Unit → GoOutcome A) : GoOutcome A × Bool :=
  match validateArgsModel act sig req with
  | .error es => (.fail es, false)
  | .ok _ => (rest (), true)

/-- Freshness predicate of the check filtering loop: a handler version is fresh
when the fingerprint of its serialization is outside the set of fingerprints of
the archived history entries. -/
def freshP (C : Codec S V G P) (hist : List String) (v : V) : Bool :=
  !((hist.map C.fp).contains (C.fp (C.marshalV v)))

/-- The filtering loop of check agrees with a declarative filter over the
handler list: kept versions are exactly those whose fingerprint is outside the
archived set, in handler order, and the unarchived batch is their
serializations in the same order. -/
theorem filterNew_eq (C : Codec S V G P) (A : List String) (l : List V) :
    filterNew C A true l
      = (l.filter (fun v => !(A.contains (C.fp (C.marshalV v)))),
         (l.filter (fun v => !(A.contains (C.fp (C.marshalV v))))).map C.marshalV) := by
  induction l with
  | nil => rfl
  | cons v rest ih =>
    simp only [filterNew, ih]
    by_cases h : C.fp (C.marshalV v) ∈ A
    · simp [List.filter_cons, h]
    · simp [List.filter_cons, h]

/-- Evaluation lemma for a check invocation whose archive history call
succeeded and whose adoption and history decoding succeeded and whose handler
returned normally. -/
theorem checkGo_run (C : Codec S V G P) (f : Option S → Option V → GoOutcome (List V))
    (put : List String → Except String Unit) (hist : List String) (src : Option S)
    (version v2 : Option V) (histVs newVs : List V)
    (hadopt : adoptVersion C hist version = .ok v2)
    (hdec : decodeHistory C hist = .ok histVs)
    (hf : f src v2 = .ok newVs) :
    checkGo C f (some ⟨.ok hist, put⟩) src version
      = (let p := filterNew C (hist.map C.fp) true newVs
         if p.2.isEmpty then ⟨.ok (histVs ++ p.1), some v2, [], false⟩
         else
           match put p.2 with
           | .error e => ⟨.fail ["error archiving new versions: " ++ e], some v2, p.2, true⟩
           | .ok _ => ⟨.ok (histVs ++ p.1), some v2, p.2, true⟩) := by
  simp only [checkGo]
  rw [hadopt]
  simp only [checkRest]
  rw [hdec]
  simp only
  rw [hf]
  simp only [Bool.true_and]
  cases hb : (filterNew C (List.map C.fp hist) true newVs).2.isEmpty <;> simp [hb]

/-- Claim C1: with no archive configured and a handler returning zero versions,
the generic check returns the empty list, which is the nil slice, and the
emission step serializes it as the JSON literal null rather than the empty
array the specification requires. -/
theorem check_empty_result_serializes_null :
    (checkGo idCodec (fun _ _ => .ok []) none none none).result = .ok []
      ∧ renderCheckBody idCodec [] = "null"
      ∧ runGeneric (renderCheckBody idCodec)
          (checkGo idCodec (fun _ _ => .ok []) none none none).result = .emitted "null"
      ∧ "null" ≠ "[]" := by
  exact ⟨rfl, rfl, rfl, by decide⟩

/-- Claim C5: an in invocation whose request carries no version fails with a
version required error in the multierror, and the handler is never called. -/
theorem in_requires_version (C : Codec S V G P)
    (f : Option S → Option V → String → Option G → GoOutcome (List Metadata))
    (src : Option S) (path : String) (raw : Option String) :
    (inGo C f src none path raw).handlerCalled = false
      ∧ ∃ es, (inGo C f src none path raw).result = .fail es ∧ "version required" ∈ es := by
  unfold inGo
  exact ⟨rfl,
    ⟨"version required" :: (parseParams C.unmarshalG C.validateG raw).2, rfl,
      List.mem_cons_self _ _⟩⟩

/-- Claim C8: in the generics based dispatcher there is no deferred recover, so
a handler panic is not converted into an error result: it unwinds out of the
invocation and crashes the process, unlike the reflection based Action Exec
whose recover maps it to an ordinary error carrying the panic description. -/
theorem handler_panic_not_converted_generic :
    (checkGo idCodec (fun _ _ => .panicked "boom") none none none).result = .panicked "boom"
      ∧ runGeneric (renderCheckBody idCodec)
          (checkGo idCodec (fun _ _ => .panicked "boom") none none none).result
        = .crashed "boom"
      ∧ (∀ es, ProcOutcome.crashed "boom" ≠ ProcOutcome.errored es)
      ∧ recoverToError
          (checkGo idCodec (fun _ _ => .panicked "boom") none none none).result
        = .fail ["panic: boom"] := by
  refine ⟨rfl, rfl, ?_, rfl⟩
  intro es h
  exact ProcOutcome.noConfusion h

/-- Claim C9: a successful in invocation responds with the request version
unchanged; the handler contributes only the metadata. -/
theorem in_response_version_is_request_version (C : Codec S V G P)
    (f : Option S → Option V → String → Option G → GoOutcome (List Metadata))
    (src : Option S) (v : V) (path : String) (raw : Option String)
    (params : Option G) (meta : List Metadata)
    (hp : parseParams C.unmarshalG C.validateG raw = (params, []))
    (hf : f src (some v) path params = .ok meta) :
    (inGo C f src (some v) path raw).result = .ok ⟨v, meta⟩ := by
  unfold inGo
  rw [hp]
  simpa using congrArg (fun o => (match o with
    | GoOutcome.panicked m => (⟨.panicked m, true⟩ : InOut V)
    | GoOutcome.fail es => ⟨.fail es, true⟩
    | GoOutcome.ok meta => ⟨.ok ⟨v, meta⟩, true⟩).result) hf

/-- Witness for claim C9 at a concrete invocation. -/
theorem in_response_version_is_request_version_witness :
    (inGo idCodec (fun _ _ _ _ => .ok [⟨"n", "x"⟩]) none (some "v1") "p" none).result
      = .ok ⟨"v1", [⟨"n", "x"⟩]⟩ := by
  exact in_response_version_is_request_version idCodec _ none "v1" "p" none none [⟨"n", "x"⟩]
    rfl rfl

/-- Claim C2: with an archive configured, a successful check responds with all
decoded archived history entries first, in archive order, followed by exactly
the handler returned versions whose serialization fingerprint is not among the
archived fingerprints, in handler order. -/
theorem check_archived_entries_precede_new (C : Codec S V G P)
    (f : Option S → Option V → GoOutcome (List V)) (put : List String → Except String Unit)
    (hist : List String) (src : Option S) (version v2 : Option V) (histVs newVs : List V)
    (hadopt : adoptVersion C hist version = .ok v2)
    (hdec : decodeHistory C hist = .ok histVs)
    (hf : f src v2 = .ok newVs)
    (hput : ∀ b, put b = .ok ()) :
    (checkGo C f (some ⟨.ok hist, put⟩) src version).result
      = .ok (histVs ++ newVs.filter (freshP C hist)) := by
  rw [checkGo_run C f put hist src version v2 histVs newVs hadopt hdec hf]
  have hfp : (fun v => !((hist.map C.fp).contains (C.fp (C.marshalV v)))) = freshP C hist := rfl
  rw [filterNew_eq, hfp]
  simp only [hput]
  split <;> rfl

/-- Witness for claim C2 at a concrete invocation: one archived entry, a
handler returning that entry plus one new version. -/
theorem check_archived_entries_precede_new_witness :
    (checkGo idCodec (fun _ _ => .ok ["a", "x"]) (some ⟨.ok ["a"], fun _ => .ok ()⟩)
        none none).result
      = .ok ["a", "x"] := by
  have h := check_archived_entries_precede_new idCodec (fun _ _ => .ok ["a", "x"])
    (fun _ => .ok ()) ["a"] none none (some "a") ["a"] ["a", "x"] rfl rfl rfl (fun _ => rfl)
  rw [h]
  decide

/-- Claim C4: when the request carries no version and the archived history is
non empty, the check handler is invoked with the decoded last history entry as
its version argument rather than a nil version. -/
theorem check_handler_gets_latest_archived (C : Codec S V G P)
    (f : Option S → Option V → GoOutcome (List V)) (put : List String → Except String Unit)
    (hist : List String) (src : Option S) (b : String) (v : V) (histVs : List V)
    (hlast : hist.getLast? = some b)
    (hv : C.unmarshalV b = some v)
    (hdec : decodeHistory C hist = .ok histVs) :
    (checkGo C f (some ⟨.ok hist, put⟩) src none).handlerArg = some (some v) := by
  have hadopt : adoptVersion C hist none = .ok (some v) := by
    simp [adoptVersion, hlast, hv]
  simp only [checkGo]
  rw [hadopt]
  simp only [checkRest]
  rw [hdec]
  simp only
  cases hfo : f src (some v) with
  | ok newVs =>
    simp only [hfo]
    split
    · split <;> rfl
    · rfl
  | fail es => simp [hfo]
  | panicked m => simp [hfo]

/-- Witness for claim C4 at a concrete invocation with two archived entries. -/
theorem check_handler_gets_latest_archived_witness :
    (checkGo idCodec (fun _ _ => .ok []) (some ⟨.ok ["a", "b"], fun _ => .ok ()⟩)
        none none).handlerArg
      = some (some "b") :=
  check_handler_gets_latest_archived idCodec (fun _ _ => .ok []) (fun _ => .ok ())
    ["a", "b"] none "b" "b" ["a", "b"] rfl rfl rfl

/-- Claim C10: the archived fingerprint set is not extended while handler
versions are appended, so when the handler returns two versions with identical
serialized bytes whose fingerprint is fresh, both occurrences are appended to
the response and both serializations are in the batch passed to Put. -/
theorem check_duplicate_versions_both_emitted (C : Codec S V G P)
    (put : List String → Except String Unit) (hist : List String) (src : Option S)
    (version v2 : Option V) (histVs l1 l2 l3 : List V) (v w : V)
    (hadopt : adoptVersion C hist version = .ok v2)
    (hdec : decodeHistory C hist = .ok histVs)
    (hput : ∀ b, put b = .ok ())
    (hbytes : C.marshalV w = C.marshalV v)
    (hfresh : freshP C hist v = true) :
    (checkGo C (fun _ _ => .ok (l1 ++ v :: l2 ++ w :: l3)) (some ⟨.ok hist, put⟩)
          src version).result
        = .ok (histVs ++ (l1 ++ v :: l2 ++ w :: l3).filter (freshP C hist))
      ∧ (checkGo C (fun _ _ => .ok (l1 ++ v :: l2 ++ w :: l3)) (some ⟨.ok hist, put⟩)
          src version).putBatch
        = ((l1 ++ v :: l2 ++ w :: l3).filter (freshP C hist)).map C.marshalV
      ∧ (checkGo C (fun _ _ => .ok (l1 ++ v :: l2 ++ w :: l3)) (some ⟨.ok hist, put⟩)
          src version).putCalled = true
      ∧ 2 ≤ (((l1 ++ v :: l2 ++ w :: l3).filter (freshP C hist)).map C.marshalV).count
          (C.marshalV v) := by
  have hw : freshP C hist w = true := by
    unfold freshP at hfresh ⊢
    rw [hbytes]
    exact hfresh
  have hfil : (l1 ++ v :: l2 ++ w :: l3).filter (freshP C hist)
      = l1.filter (freshP C hist)
        ++ v :: (l2.filter (freshP C hist) ++ w :: l3.filter (freshP C hist)) := by
    simp [List.filter_append, List.filter_cons, hfresh, hw]
  have hrun := checkGo_run C (fun _ _ => .ok (l1 ++ v :: l2 ++ w :: l3)) put hist src version
    v2 histVs (l1 ++ v :: l2 ++ w :: l3) hadopt hdec rfl
  have hfp : (fun x => !((hist.map C.fp).contains (C.fp (C.marshalV x)))) = freshP C hist := rfl
  rw [filterNew_eq, hfp] at hrun
  have hne : (((l1 ++ v :: l2 ++ w :: l3).filter (freshP C hist)).map C.marshalV).isEmpty
      = false := by
    rw [hfil]
    simp
  rw [hrun]
  simp only [hne, hput]
  refine ⟨rfl, rfl, rfl, ?_⟩
  rw [hfil]
  simp [List.count_append, List.count_cons, hbytes]
  omega

/-- Witness for claim C10 at a concrete invocation: the handler returns the
same fresh version twice and both land in the response and in the batch. -/
theorem check_duplicate_versions_both_emitted_witness :
    (checkGo idCodec (fun _ _ => .ok (["d", "d"])) (some ⟨.ok ["a"], fun _ => .ok ()⟩)
        none (some "a")).putBatch = ["d", "d"] := by
  have h := check_duplicate_versions_both_emitted idCodec (fun _ => .ok ()) ["a"] none
    (some "a") (some "a") ["a"] [] [] [] "d" "d" rfl rfl (fun _ => rfl) rfl (by decide)
  simp only [List.cons_append, List.nil_append] at h
  rw [h.2.1]
  decide

/-- Claim C6: a failing archive Put aborts the invocation: for check with a non
empty unarchived batch and for out with an archive configured the operation
returns an error, and the entrypoint then emits no response body. -/
theorem archive_put_failure_fails_invocation (C : Codec S V G P)
    (hist : List String) (src : Option S) (version v2 : Option V) (histVs newVs : List V)
    (e : String) (vOut : V) (meta : List Metadata) (path : String)
    (render : List V → String) (renderR : GoResponse V → String)
    (hadopt : adoptVersion C hist version = .ok v2)
    (hdec : decodeHistory C hist = .ok histVs)
    (hbatch : newVs.filter (freshP C hist) ≠ []) :
    ((checkGo C (fun _ _ => .ok newVs) (some ⟨.ok hist, fun _ => .error e⟩) src version).result
        = .fail ["error archiving new versions: " ++ e]
      ∧ runGeneric render
          (checkGo C (fun _ _ => .ok newVs) (some ⟨.ok hist, fun _ => .error e⟩)
            src version).result
        = .errored ["error archiving new versions: " ++ e])
    ∧ ((outGo C (fun _ _ _ => .ok (vOut, meta)) (some (fun _ => .error e)) src path none).result
        = .fail ["error archiving new version: " ++ e]
      ∧ runGeneric renderR
          (outGo C (fun _ _ _ => .ok (vOut, meta)) (some (fun _ => .error e))
            src path none).result
        = .errored ["error archiving new version: " ++ e]) := by
  have hrun := checkGo_run C (fun _ _ => .ok newVs) (fun _ => .error e) hist src version v2
    histVs newVs hadopt hdec rfl
  have hfp : (fun x => !((hist.map C.fp).contains (C.fp (C.marshalV x)))) = freshP C hist := rfl
  rw [filterNew_eq, hfp] at hrun
  have hne : ((newVs.filter (freshP C hist)).map C.marshalV).isEmpty = false := by
    simp [List.isEmpty_iff, hbatch]
  rw [hrun]
  simp only [hne]
  exact ⟨⟨rfl, rfl⟩, ⟨rfl, rfl⟩⟩

/-- Witness for claim C6 at a concrete invocation with an always failing
Put. -/
theorem archive_put_failure_fails_invocation_witness :
    (checkGo idCodec (fun _ _ => .ok ["n"]) (some ⟨.ok [], fun _ => .error "dead"⟩)
        none (some "v0")).result
      = .fail ["error archiving new versions: dead"]
    ∧ (outGo idCodec (fun _ _ _ => .ok ("w", [])) (some (fun _ => .error "dead"))
        none "p" none).result
      = .fail ["error archiving new version: dead"] := by
  have h := archive_put_failure_fails_invocation idCodec [] none (some "v0") (some "v0")
    [] ["n"] "dead" "w" [] "p" (renderCheckBody idCodec) (fun _ => "") rfl rfl (by decide)
  exact ⟨h.1.1, h.2.1⟩

/-- One step unfolding of the boltdb Put fold. -/
theorem boltPut_cons (g : String → String) (st : BoltState) (b : String) (rest : List String) :
    boltPut g st (b :: rest)
      = boltPut g
          (if st.index.contains (g b) then st else ⟨st.contents ++ [b], st.index ++ [g b]⟩)
          rest := rfl

/-- Put never removes index entries. -/
theorem boltPut_index_mono (g : String → String) (st : BoltState) (next : List String)
    (x : String) (hx : x ∈ st.index) : x ∈ (boltPut g st next).index := by
  induction next generalizing st with
  | nil => exact hx
  | cons b rest ih =>
    rw [boltPut_cons]
    by_cases h : st.index.contains (g b) = true
    · rw [if_pos h]
      exact ih st hx
    · rw [if_neg h]
      exact ih _ (List.mem_append_left _ hx)

/-- Put never removes stored contents. -/
theorem boltPut_contents_mono (g : String → String) (st : BoltState) (next : List String)
    (x : String) (hx : x ∈ st.contents) : x ∈ (boltPut g st next).contents := by
  induction next generalizing st with
  | nil => exact hx
  | cons b rest ih =>
    rw [boltPut_cons]
    by_cases h : st.index.contains (g b) = true
    · rw [if_pos h]
      exact ih st hx
    · rw [if_neg h]
      exact ih _ (List.mem_append_left _ hx)

/-- After a Put, the digest of every put entry is in the index. -/
theorem boltPut_mem_index (g : String → String) (st : BoltState) (next : List String)
    (b : String) (hb : b ∈ next) : g b ∈ (boltPut g st next).index := by
  induction next generalizing st with
  | nil => cases hb
  | cons c rest ih =>
    rw [boltPut_cons]
    rcases List.mem_cons.mp hb with rfl | hb'
    · apply boltPut_index_mono
      by_cases h : st.index.contains (g b) = true
      · rw [if_pos h]
        simpa using h
      · rw [if_neg h]
        exact List.mem_append_right _ (List.mem_singleton.mpr rfl)
    · exact ih _ hb'

/-- A Put whose every entry digest is already indexed is a no op. -/
theorem boltPut_noop (g : String → String) (st : BoltState) (next : List String)
    (h : ∀ b ∈ next, g b ∈ st.index) : boltPut g st next = st := by
  induction next with
  | nil => rfl
  | cons b rest ih =>
    rw [boltPut_cons]
    have hb : st.index.contains (g b) = true := by
      simpa using h b (List.mem_cons_self b rest)
    rw [if_pos hb]
    exact ih (fun c hc => h c (List.mem_cons_of_mem b hc))

/-- Put preserves the index invariant and keeps the stored digests free of
duplicates: the archive never grows beyond the set of distinct content
fingerprints. -/
theorem boltPut_wf (g : String → String) (st : BoltState) (next : List String)
    (hidx : st.index = st.contents.map g) (hnd : (st.contents.map g).Nodup) :
    (boltPut g st next).index = (boltPut g st next).contents.map g
      ∧ ((boltPut g st next).contents.map g).Nodup := by
  induction next generalizing st with
  | nil => exact ⟨hidx, hnd⟩
  | cons b rest ih =>
    rw [boltPut_cons]
    by_cases h : st.index.contains (g b) = true
    · rw [if_pos h]
      exact ih st hidx hnd
    · rw [if_neg h]
      apply ih
      · simp [hidx]
      · have hni : g b ∉ st.contents.map g := by
          rw [hidx] at h
          simpa using h
        simp [List.nodup_append, hnd, hni]

/-- When the history decodes as a whole, each entry decodes. -/
theorem decodeHistory_mem_ok (C : Codec S V G P) (h : List String) (vs : List V)
    (hok : decodeHistory C h = .ok vs) (x : String) (hx : x ∈ h) :
    ∃ v, C.unmarshalV x = some v := by
  induction h generalizing vs with
  | nil => cases hx
  | cons b rest ih =>
    rcases List.mem_cons.mp hx with rfl | hx'
    · cases hv : C.unmarshalV x with
      | none => simp [decodeHistory, hv] at hok
      | some v => exact ⟨v, rfl⟩
    · cases hv : C.unmarshalV b with
      | none => simp [decodeHistory, hv] at hok
      | some v =>
        cases hr : decodeHistory C rest with
        | error e => simp [decodeHistory, hv, hr] at hok
        | ok vs' => exact ih vs' hr hx'

/-- When each entry decodes, the history decodes as a whole. -/
theorem decodeHistory_ok_of_forall (C : Codec S V G P) (h : List String)
    (hall : ∀ x ∈ h, ∃ v, C.unmarshalV x = some v) :
    ∃ vs, decodeHistory C h = .ok vs := by
  induction h with
  | nil => exact ⟨[], rfl⟩
  | cons b rest ih =>
    obtain ⟨v, hv⟩ := hall b (List.mem_cons_self b rest)
    obtain ⟨vs, hvs⟩ := ih (fun x hx => hall x (List.mem_cons_of_mem b hx))
    exact ⟨v :: vs, by simp [decodeHistory, hv, hvs]⟩

/-- Adoption succeeds whenever every history entry decodes. -/
theorem adoptVersion_ok (C : Codec S V G P) (h : List String) (version : Option V)
    (hall : ∀ x ∈ h, ∃ v, C.unmarshalV x = some v) :
    ∃ v2, adoptVersion C h version = .ok v2 := by
  cases version with
  | some v => exact ⟨some v, rfl⟩
  | none =>
    cases hl : h.getLast? with
    | none => exact ⟨none, by simp [adoptVersion, hl]⟩
    | some b =>
      obtain ⟨v, hv⟩ := hall b (List.mem_of_mem_getLast? hl)
      exact ⟨some v, by simp [adoptVersion, hl, hv]⟩

/-- Freshness against a larger history implies freshness against a smaller
one. -/
theorem freshP_antitone (C : Codec S V G P) (h1 h2 : List String) (v : V)
    (hsub : ∀ x ∈ h1, x ∈ h2) (hf : freshP C h2 v = true) : freshP C h1 v = true := by
  unfold freshP at hf ⊢
  simp at hf ⊢
  intro x hx1
  exact hf x (hsub x hx1)

/-- The batch a check invocation passes to Put, when adoption and history
decoding succeed and the handler returns normally, is exactly the serialized
fresh handler versions. -/
theorem checkGo_putBatch_eq (C : Codec S V G P) (vs : List V)
    (aput : List String → Except String Unit) (ah : List String) (src : Option S)
    (version v2 : Option V) (histVs : List V)
    (had : adoptVersion C ah version = .ok v2)
    (hd : decodeHistory C ah = .ok histVs) :
    (checkGo C (fun _ _ => .ok vs) (some ⟨.ok ah, aput⟩) src version).putBatch
      = (vs.filter (freshP C ah)).map C.marshalV := by
  rw [checkGo_run C (fun _ _ => .ok vs) aput ah src version v2 histVs vs had hd rfl]
  have hfp : (fun x => !((ah.map C.fp).contains (C.fp (C.marshalV x)))) = freshP C ah := rfl
  rw [filterNew_eq, hfp]
  by_cases he : ((vs.filter (freshP C ah)).map C.marshalV).isEmpty = true
  · simp only [he, if_true]
    exact (List.isEmpty_iff.mp he).symm
  · simp only [he, if_false]
    cases hp : aput ((vs.filter (freshP C ah)).map C.marshalV) <;> simp [hp]

/-- Every batch entry comes from a fresh handler version, and a non empty batch
certifies that adoption and history decoding succeeded. -/
theorem checkGo_putBatch_mem (C : Codec S V G P) (vs : List V)
    (aput : List String → Except String Unit) (ah : List String) (src : Option S)
    (version : Option V) (b : String)
    (hb : b ∈ (checkGo C (fun _ _ => .ok vs) (some ⟨.ok ah, aput⟩) src version).putBatch) :
    (∃ v2, adoptVersion C ah version = .ok v2)
      ∧ (∃ histVs, decodeHistory C ah = .ok histVs)
      ∧ ∃ v ∈ vs, b = C.marshalV v ∧ freshP C ah v = true := by
  cases had : adoptVersion C ah version with
  | error e => simp [checkGo, had] at hb
  | ok v2 =>
    cases hd : decodeHistory C ah with
    | error e => simp [checkGo, checkRest, had, hd] at hb
    | ok histVs =>
      refine ⟨⟨v2, rfl⟩, ⟨histVs, rfl⟩, ?_⟩
      rw [checkGo_putBatch_eq C vs aput ah src version v2 histVs had hd] at hb
      obtain ⟨v, hvf, hvm⟩ := List.mem_map.mp hb
      obtain ⟨hv1, hv2⟩ := List.mem_filter.mp hvf
      exact ⟨v, hv1, hvm.symm, hv2⟩

/-- Entries visible through History remain visible after a Put. -/
theorem boltHistory_mono (g : String → String) (force : Bool) (st : BoltState)
    (next : List String) (latest : Option String) (x : String)
    (hx : x ∈ boltHistory force st latest) :
    x ∈ boltHistory force (boltPut g st next) latest := by
  cases latest with
  | none =>
    simp only [boltHistory] at hx ⊢
    exact boltPut_contents_mono g st next x hx
  | some l =>
    cases force with
    | false => simp [boltHistory] at hx
    | true =>
      simp only [boltHistory, if_true] at hx ⊢
      exact boltPut_contents_mono g st next x hx

/-- Claim C3: running check twice against a boltdb archive with the same
handler returned version set is idempotent on the archive: the state after the
second run equals the state after the first, and the stored content
fingerprints stay free of duplicates, so the archive never grows beyond the
set of distinct fingerprints. -/
theorem check_twice_archive_idempotent (C : Codec S V G P) (g : String → String)
    (force : Bool) (vs : List V) (src : Option S) (version : Option V) (st : BoltState)
    (hidx : st.index = st.contents.map g)
    (hnd : (st.contents.map g).Nodup) :
    (checkWithBolt C g force (fun _ _ => .ok vs) src version
        ((checkWithBolt C g force (fun _ _ => .ok vs) src version st).2)).2
      = (checkWithBolt C g force (fun _ _ => .ok vs) src version st).2
    ∧ (((checkWithBolt C g force (fun _ _ => .ok vs) src version st).2).contents.map g).Nodup
    ∧ ((checkWithBolt C g force (fun _ _ => .ok vs) src version st).2).index
      = ((checkWithBolt C g force (fun _ _ => .ok vs) src version st).2).contents.map g := by
  simp only [checkWithBolt]
  refine ⟨?_, (boltPut_wf g st _ hidx hnd).2, (boltPut_wf g st _ hidx hnd).1⟩
  apply boltPut_noop
  intro b hb
  obtain ⟨-, ⟨histVs2, hdec2⟩, v, hv_vs, hbm, hfresh2⟩ :=
    checkGo_putBatch_mem C vs _ _ src version b hb
  subst hbm
  have hall1 : ∀ x ∈ boltHistory force st (version.map C.marshalV),
      ∃ u, C.unmarshalV x = some u :=
    fun x hx =>
      decodeHistory_mem_ok C _ histVs2 hdec2 x (boltHistory_mono g force st _ _ x hx)
  obtain ⟨histVs1, hdec1⟩ := decodeHistory_ok_of_forall C _ hall1
  obtain ⟨v21, hadopt1⟩ := adoptVersion_ok C _ version hall1
  have hfresh1 : freshP C (boltHistory force st (version.map C.marshalV)) v = true :=
    freshP_antitone C _ _ v (fun x hx => boltHistory_mono g force st _ _ x hx) hfresh2
  have hmem1 : C.marshalV v ∈ (checkGo C (fun _ _ => .ok vs)
      (some ⟨.ok (boltHistory force st (version.map C.marshalV)), fun _ => .ok ()⟩)
      src version).putBatch := by
    rw [checkGo_putBatch_eq C vs (fun _ => Except.ok ()) _ src version v21 histVs1
      hadopt1 hdec1]
    exact List.mem_map.mpr ⟨v, List.mem_filter.mpr ⟨hv_vs, hfresh1⟩, rfl⟩
  exact boltPut_mem_index g st _ _ hmem1

/-- Witness for claim C3 at a concrete archive and handler: the first run
archives the one fresh version and the second run changes nothing. -/
theorem check_twice_archive_idempotent_witness :
    (checkWithBolt idCodec id false (fun _ _ => .ok ["a", "b"]) none none
        ((checkWithBolt idCodec id false (fun _ _ => .ok ["a", "b"]) none none
          ⟨["a"], ["a"]⟩).2)).2
      = (checkWithBolt idCodec id false (fun _ _ => .ok ["a", "b"]) none none
          ⟨["a"], ["a"]⟩).2 := by
  exact (check_twice_archive_idempotent idCodec id false ["a", "b"] none none
    ⟨["a"], ["a"]⟩ (by decide) (by decide)).1

/-- Membership transport into the argument loop at an arbitrary starting
index. -/
theorem argErrsLoop_mem (req : ReqParse) (k : Nat) (args : List Argument) (ts : List GoType)
    (hlen : ts.length = args.length) (i : Nat) (hi : i < args.length) (m : String)
    (hm : m ∈ argCheck req (k + i) (args.getD i .contextInput) (ts.getD i GoType.str)) :
    m ∈ argErrsLoop req k args ts := by
  induction args generalizing k ts i with
  | nil => exact absurd hi (by simp)
  | cons a as ih =>
    cases ts with
    | nil => simp at hlen
    | cons t ts' =>
      cases i with
      | zero =>
        refine List.mem_append_left _ ?_
        simpa using hm
      | succ j =>
        refine List.mem_append_right _ ?_
        have hkj : k + (j + 1) = (k + 1) + j := by omega
        rw [hkj] at hm
        exact ih (k + 1) ts' (by simpa using hlen) j (by simpa using hi) (by simpa using hm)

/-- Claim C7: for a handler signature with the right argument count, every
independent contract violation, argument shapes, return value count and
shapes, and a missing trailing error type, appears in the one aggregated error
the signature validator returns, and the action gate then never reaches the
method invocation. -/
theorem signature_violations_all_reported (act : ActionDesc) (sig : GoSig) (req : ReqParse)
    (hlen : sig.ins.length = act.arguments.length) (m : String) (i : Nat)
    (hm : (i < act.arguments.length
        ∧ m ∈ argCheck req i (act.arguments.getD i .contextInput) (sig.ins.getD i GoType.str))
      ∨ m ∈ retCheck act.returnValues sig.outs
      ∨ m ∈ lastRetCheck sig.outs) :
    ∃ es, validateArgsModel act sig req = .error es ∧ m ∈ es
      ∧ ∀ (A : Type) (rest : Unit → GoOutcome A), (actionExecGate act sig req rest).2 = false := by
  have hmem : m ∈ argErrsLoop req 0 act.arguments sig.ins
      ++ retCheck act.returnValues sig.outs ++ lastRetCheck sig.outs := by
    rcases hm with ⟨hi, hma⟩ | hmr | hml
    · refine List.mem_append_left _ (List.mem_append_left _ ?_)
      exact argErrsLoop_mem req 0 act.arguments sig.ins hlen i hi m (by simpa using hma)
    · exact List.mem_append_left _ (List.mem_append_right _ hmr)
    · exact List.mem_append_right _ hml
  have hne := List.ne_nil_of_mem hmem
  have hempty : (argErrsLoop req 0 act.arguments sig.ins
      ++ retCheck act.returnValues sig.outs ++ lastRetCheck sig.outs).isEmpty = false := by
    cases h : (argErrsLoop req 0 act.arguments sig.ins
        ++ retCheck act.returnValues sig.outs ++ lastRetCheck sig.outs).isEmpty
    · rfl
    · exact absurd (List.isEmpty_iff.mp h) hne
  have hval : validateArgsModel act sig req
      = .error (argErrsLoop req 0 act.arguments sig.ins
        ++ retCheck act.returnValues sig.outs ++ lastRetCheck sig.outs) := by
    unfold validateArgsModel
    rw [if_neg (by omega)]
    simp only [hempty]
    rfl
  refine ⟨_, hval, hmem, ?_⟩
  intro A rest
  unfold actionExecGate
  rw [hval]

/-- Witness for claim C7: a Check handler signature with four independent
violations; two distinct violations are both reported in the aggregate, each
obtained through the claim theorem. -/
theorem signature_violations_all_reported_witness :
    (∃ es, validateArgsModel checkAction
        ⟨[GoType.int, GoType.int, GoType.ptr (GoType.named "V")], [GoType.slice (GoType.named "V")]⟩
        ⟨none, none, none⟩ = .error es
      ∧ "argument 0 must be of type context.Context" ∈ es)
    ∧ (∃ es, validateArgsModel checkAction
        ⟨[GoType.int, GoType.int, GoType.ptr (GoType.named "V")], [GoType.slice (GoType.named "V")]⟩
        ⟨none, none, none⟩ = .error es
      ∧ "last return value must be of type error" ∈ es) := by
  constructor
  · obtain ⟨es, h1, h2, -⟩ := signature_violations_all_reported checkAction
      ⟨[GoType.int, GoType.int, GoType.ptr (GoType.named "V")], [GoType.slice (GoType.named "V")]⟩
      ⟨none, none, none⟩ (by decide) "argument 0 must be of type context.Context" 0
      (Or.inl ⟨by decide, by decide⟩)
    exact ⟨es, h1, h2⟩
  · obtain ⟨es, h1, h2, -⟩ := signature_violations_all_reported checkAction
      ⟨[GoType.int, GoType.int, GoType.ptr (GoType.named "V")], [GoType.slice (GoType.named "V")]⟩
      ⟨none, none, none⟩ (by decide) "last return value must be of type error" 0
      (Or.inr (Or.inr (by decide)))
    exact ⟨es, h1, h2⟩

end Sdk
